import Mathlib

/-!
Verification of the `obsidian_to_latex` markdown-to-LaTeX converter
(`src/obsidian_to_latex/converter.py`).

The converter is a sequence of whole-text regex-substitution passes over the
document string.  We embed the document text as `List Char` and translate each
pass into an executable Lean function whose behaviour follows the Python
source, including the semantics of the specific regular expressions used
(leftmost scanning, non-greedy groups, MULTILINE line anchoring, DOTALL).

One piece of Python runtime behaviour is load-bearing: `re.sub` parses its
string replacement template before substituting, and (since Python 3.7) a
backslash followed by an ASCII letter that is not a recognised escape raises
`re.error` ("bad escape").  `convert_headers` builds replacement templates
such as `\section{\1}`, whose leading `\s` is exactly such a bad escape, so
its first `re.sub` call raises; the surrounding `except` handler returns the
input text unchanged.  We model a raising pass as a `Sum`-valued body: `inl c`
means the body raised with local variable `content` holding `c` at that point.
-/

/-- The characters of a string literal, the representation used for document
text throughout this development. -/
def chars (s : String) : List Char := s.data

/-- Python `str.isspace` / regex `\s` for the ASCII characters that occur in
markdown documents: space, tab, newline, carriage return, form feed,
vertical tab. -/
def pySpace (c : Char) : Bool :=
  c = ' ' || c = '\t' || c = '\n' || c = '\x0d' || c = '\x0c' || c = '\x0b'

/-- ASCII model of Python `str.isdigit` on a single character. -/
def pyDigit (c : Char) : Bool := '0' ≤ c && c ≤ '9'

/-- Python `str.isdigit()`: nonempty and all digits (ASCII model). -/
def pyIsDigit (s : List Char) : Bool := !s.isEmpty && s.all pyDigit

/-- ASCII model of the regex word class `\w`: letters, digits, underscore. -/
def wordChar (c : Char) : Bool :=
  ('a' ≤ c && c ≤ 'z') || ('A' ≤ c && c ≤ 'Z') || pyDigit c || c = '_'

/-- Python `str.strip()`: drop whitespace from both ends. -/
def pyStrip (s : List Char) : List Char :=
  ((s.dropWhile pySpace).reverse.dropWhile pySpace).reverse

/-- Python `str.strip(set)`: drop characters of `set` from both ends. -/
def pyStripSet (set : List Char) (s : List Char) : List Char :=
  ((s.dropWhile (set.contains ·)).reverse.dropWhile (set.contains ·)).reverse

/-- Python `str.split(sep)` for a one-character separator.  The result is
always nonempty; `"".split(c) = [""]`. -/
def splitChar (sep : Char) : List Char → List (List Char)
  | [] => [[]]
  | c :: cs =>
    let r := splitChar sep cs
    if c = sep then [] :: r
    else
      match r with
      | h :: t => (c :: h) :: t
      | [] => [[c]]

/-- Join with a one-character separator (inverse of `splitChar`). -/
def joinChar (sep : Char) (ps : List (List Char)) : List Char :=
  List.intercalate [sep] ps

/-- Python `str.split(sep, 1)` for a one-character separator: split at the
first occurrence only; `none` when the separator does not occur. -/
def splitOnceChar (sep : Char) : List Char → Option (List Char × List Char)
  | [] => none
  | c :: cs =>
    if c = sep then some ([], cs)
    else (splitOnceChar sep cs).map (fun p => (c :: p.1, p.2))

/-- Python `str.replace(a, b)` for one-character arguments. -/
def replaceChar (a b : Char) (s : List Char) : List Char :=
  s.map (fun c => if c = a then b else c)

/-- `os.path.basename`: the suffix after the last `/` (POSIX behaviour). -/
def basenameOf (s : List Char) : List Char :=
  (s.reverse.takeWhile (· ≠ '/')).reverse

/-- Python `str.replace(needle, repl)`: replace every occurrence, scanning
left to right without rescanning replacement text.  Fuelled recursion; the
fuel `s.length` suffices because every step consumes at least one input
character (all needles in this development are nonempty). -/
def replaceAllAux (needle repl : List Char) : Nat → List Char → List Char
  | 0, s => s
  | _ + 1, [] => []
  | n + 1, c :: cs =>
    if needle.isPrefixOf (c :: cs) then
      repl ++ replaceAllAux needle repl n ((c :: cs).drop needle.length)
    else
      c :: replaceAllAux needle repl n cs

/-- Python `str.replace(needle, repl)`. -/
def replaceAll (needle repl s : List Char) : List Char :=
  replaceAllAux needle repl s.length s

/-!
## Non-greedy substitution scanners

The converter only uses patterns of the shapes `op(.*?)cl` and
`op(.*?)sep(.*?)cl`, with or without `re.DOTALL`.  Without DOTALL a group
cannot cross a newline.  `re.sub` scans left to right; on a failed match at a
position the engine advances one character; replacement text is not
rescanned.
-/

/-- Split `s` as `mid ++ cl ++ rest` with minimal `mid` (the non-greedy group
`(.*?)` followed by the literal `cl`).  Without `dotall`, `mid` may not
contain a newline. -/
def splitFirst (cl : List Char) (dotall : Bool) : List Char → Option (List Char × List Char)
  | [] => none
  | c :: cs =>
    if cl.isPrefixOf (c :: cs) then some ([], (c :: cs).drop cl.length)
    else if !dotall && c = '\n' then none
    else
      match splitFirst cl dotall cs with
      | some (m, r) => some (c :: m, r)
      | none => none

/-- Global substitution for `op(.*?)cl`: `f` receives the group. -/
def gsub1Aux (op cl : List Char) (dotall : Bool) (f : List Char → List Char) :
    Nat → List Char → List Char
  | 0, s => s
  | _ + 1, [] => []
  | n + 1, c :: cs =>
    if op.isPrefixOf (c :: cs) then
      match splitFirst cl dotall ((c :: cs).drop op.length) with
      | some (mid, rest) => f mid ++ gsub1Aux op cl dotall f n rest
      | none => c :: gsub1Aux op cl dotall f n cs
    else c :: gsub1Aux op cl dotall f n cs

/-- `re.sub` for a pattern `op(.*?)cl`. -/
def gsub1 (op cl : List Char) (dotall : Bool) (f : List Char → List Char)
    (s : List Char) : List Char :=
  gsub1Aux op cl dotall f s.length s

/-- Split `s` as `g1 ++ sep ++ g2 ++ cl ++ rest` with both groups non-greedy:
the first `sep` position from which a `cl` can also be found wins (regex
backtracking lets `g1` grow past a `sep` whose continuation fails). -/
def splitTwoAux (sep cl : List Char) (g1dot g2dot : Bool) :
    List Char → Option (List Char × List Char × List Char)
  | [] => none
  | c :: cs =>
    let grown :=
      if !g1dot && c = '\n' then none
      else (splitTwoAux sep cl g1dot g2dot cs).map (fun t => (c :: t.1, t.2.1, t.2.2))
    if sep.isPrefixOf (c :: cs) then
      match splitFirst cl g2dot ((c :: cs).drop sep.length) with
      | some (g2, rest) => some ([], g2, rest)
      | none => grown
    else grown

/-- Global substitution for `op(.*?)sep(.*?)cl`: `f` receives both groups. -/
def gsub2Aux (op sep cl : List Char) (g1dot g2dot : Bool)
    (f : List Char → List Char → List Char) : Nat → List Char → List Char
  | 0, s => s
  | _ + 1, [] => []
  | n + 1, c :: cs =>
    if op.isPrefixOf (c :: cs) then
      match splitTwoAux sep cl g1dot g2dot ((c :: cs).drop op.length) with
      | some (g1, g2, rest) => f g1 g2 ++ gsub2Aux op sep cl g1dot g2dot f n rest
      | none => c :: gsub2Aux op sep cl g1dot g2dot f n cs
    else c :: gsub2Aux op sep cl g1dot g2dot f n cs

/-- `re.sub` for a pattern `op(.*?)sep(.*?)cl`. -/
def gsub2 (op sep cl : List Char) (g1dot g2dot : Bool)
    (f : List Char → List Char → List Char) (s : List Char) : List Char :=
  gsub2Aux op sep cl g1dot g2dot f s.length s

/-- Validity of a Python `re.sub` string replacement template.  Since Python
3.7 a backslash followed by an ASCII letter other than a recognised escape
(`\a \b \f \n \r \t \v \g`) is an error ("bad escape"); group references
`\1`..`\99`, `\\`, and backslash before a non-letter are accepted. -/
def templateOk : List Char → Bool
  | [] => true
  | '\\' :: [] => false
  | '\\' :: c :: rest =>
    if c.isAlpha && !(c = 'g' || c = 'a' || c = 'b' || c = 'f' || c = 'n' ||
        c = 'r' || c = 't' || c = 'v') then false
    else templateOk rest
  | _ :: rest => templateOk rest

example : templateOk (chars "\\\\item \\1") = true := by decide
example : templateOk (chars "\\section\x7b\\1\x7d") = false := by decide
example : templateOk (chars "\\\\textit\x7b\\2\x7d") = true := by decide

/-!
## Frontmatter

`extract_frontmatter` matches `^---\s*\n(.*?)\n---\s*\n` (DOTALL) at the
start of the document; `remove_frontmatter` deletes the same match.  `\s*\n`
is greedy with backtracking: it consumes whitespace up to the last newline of
the maximal whitespace run from which the remainder of the pattern still
matches.
-/

/-- Indices of newline characters in `run`, largest first (the order in which
a greedy `\s*` followed by a literal `\n` tries to place the newline). -/
def nlIdxsDesc (run : List Char) : List Nat :=
  ((List.range run.length).filter (fun i => run.get? i = some '\n')).reverse

/-- Match `(.*?)\n---\s*\n` (DOTALL group): find the first `\n---` whose
trailing `\s*\n` also matches; return the group and the text after the whole
match. -/
def fmRest : List Char → Option (List Char × List Char)
  | [] => none
  | c :: cs =>
    if (chars "\n---").isPrefixOf (c :: cs) then
      let v := (c :: cs).drop 4
      let run := v.takeWhile pySpace
      match (nlIdxsDesc run).head? with
      | some j => some ([], v.drop (j + 1))
      | none => (fmRest cs).map (fun p => (c :: p.1, p.2))
    else (fmRest cs).map (fun p => (c :: p.1, p.2))

/-- Try the candidate newline positions for the opening `\s*\n` in order. -/
def fmTryKs (t : List Char) : List Nat → Option (List Char × List Char)
  | [] => none
  | k :: rest =>
    match fmRest (t.drop (k + 1)) with
    | some p => some p
    | none => fmTryKs t rest

/-- Match `^---\s*\n(.*?)\n---\s*\n` (DOTALL) at the start of the document;
returns the group (the YAML text) and the text after the match. -/
def fmMatch (s : List Char) : Option (List Char × List Char) :=
  if (chars "---").isPrefixOf s then
    let t := s.drop 3
    fmTryKs t (nlIdxsDesc (t.takeWhile pySpace))
  else none

/-- `remove_frontmatter`: `re.sub` of the anchored frontmatter pattern with
the empty string (at most one match, at position 0). -/
def remove_frontmatter (c : List Char) : List Char :=
  match fmMatch c with
  | some (_, rest) => rest
  | none => c

/-- A value stored in the metadata dict: Python keeps either the stripped
string or, when the value starts with a dash, a list of items. -/
inductive MetaVal where
  | s (v : List Char)
  | l (v : List (List Char))
deriving DecidableEq

/-- The converter's metadata record (`self.metadata`), with its defaults
`title = ''` and `tags = []`. -/
structure Metadata where
  title : MetaVal
  tags : MetaVal
deriving DecidableEq

def defaultMetadata : Metadata := ⟨MetaVal.s [], MetaVal.l []⟩

/-- Parse one `key: value` line of the frontmatter block; lines without a
colon are skipped.  A value starting with `-` is treated as a list whose
items are the newline-split pieces stripped of `-` and space (the value is a
single line, so this is a one-element list — the source's literal, simplistic
behaviour). -/
def parseFMLine (line : List Char) : Option (List Char × MetaVal) :=
  match splitOnceChar ':' line with
  | none => none
  | some (k, v) =>
    let key := pyStrip k
    let value := pyStrip v
    if value.head? = some '-' then
      some (key, MetaVal.l ((splitChar '\n' value).map (pyStripSet (chars "- "))))
    else
      some (key, MetaVal.s value)

/-- Python dict assignment: overwrite in place, else append. -/
def dictInsert (m : List (List Char × MetaVal)) (k : List Char) (v : MetaVal) :
    List (List Char × MetaVal) :=
  match m with
  | [] => [(k, v)]
  | (k', v') :: rest => if k' = k then (k', v) :: rest else (k', v') :: dictInsert rest k v

/-- Build the frontmatter dict from the YAML group text. -/
def buildDict (yaml : List Char) : List (List Char × MetaVal) :=
  (splitChar '\n' yaml).foldl
    (fun m line =>
      match parseFMLine line with
      | some (k, v) => dictInsert m k v
      | none => m) []

/-- `if key in self.metadata: self.metadata[key] = value` — only the
recognised keys `title` and `tags` are stored. -/
def metaSet (k : List Char) (v : MetaVal) (m : Metadata) : Metadata :=
  if k = chars "title" then { m with title := v }
  else if k = chars "tags" then { m with tags := v }
  else m

/-- The metadata-update loop over the extracted dict. -/
def applyFM (fm : List (List Char × MetaVal)) (m : Metadata) : Metadata :=
  fm.foldl (fun acc p => metaSet p.1 p.2 acc) m

/-- The dict `extract_frontmatter` builds from the document (empty when the
frontmatter pattern does not match). -/
def extractDict (c : List Char) : List (List Char × MetaVal) :=
  match fmMatch c with
  | some (g, _) => buildDict g
  | none => []

/-- `extract_frontmatter`: returns the raw dict and updates the metadata
record.  The body performs no raising operation, so the `except` branch of
the source (which would return `{}`) is unreachable. -/
def extract_frontmatter (c : List Char) (m : Metadata) :
    List (List Char × MetaVal) × Metadata :=
  (extractDict c, applyFM (extractDict c) m)

/-!
## Header pass

`convert_headers` loops over the five markdown depths.  For each depth it
calls `re.sub` with the string replacement `fr'{section_commands[latex_level]}{{\1}}'`,
i.e. a template beginning with `\section`, `\subsection`, `\subsubsection`,
`\paragraph` or `\subparagraph`.  Each of these starts with a bad escape
(`\s` or `\p`), so the first `re.sub` call raises `re.error` and the
`except` handler returns `content` — still the unmodified input, because the
raise happens before the first assignment.
-/

def section_commands : List (List Char) :=
  [chars "\\section", chars "\\subsection", chars "\\subsubsection",
   chars "\\paragraph", chars "\\subparagraph"]

/-- `latex_level`: `i + level_adjustment` clamped into `[0, 4]`. -/
def clampIdx (adj : Int) (i : Nat) : Nat :=
  (min (max ((i : Int) + adj) 0) 4).toNat

/-- The replacement template `fr'{cmd}{{\1}}'`, i.e. `cmd{\1}`. -/
def headerRepl (cmd : List Char) : List Char :=
  cmd ++ '{' :: '\\' :: '1' :: ['}']

/-- What `re.sub(r'^#..# (.*?)$', cmd{\1}, content, flags=MULTILINE)` would
produce if the template were accepted: line-anchored replacement of lines
starting with exactly `mdLevel` hashes and a space. -/
def headerLineSub (mdLevel : Nat) (cmd : List Char) (s : List Char) : List Char :=
  joinChar '\n' ((splitChar '\n' s).map (fun l =>
    if (List.replicate mdLevel '#' ++ [' ']).isPrefixOf l then
      cmd ++ '{' :: l.drop (mdLevel + 1) ++ ['}']
    else l))

/-- The loop body of `convert_headers`: `Sum.inl c` models the `re.error`
raised by a rejected replacement template, with `content = c` at that point. -/
def headersLoop (adj : Int) : Nat → Nat → List Char → Sum (List Char) (List Char)
  | 0, _, c => Sum.inr c
  | n + 1, i, c =>
    let cmd := section_commands.getD (clampIdx adj i) []
    if templateOk (headerRepl cmd) then
      headersLoop adj n (i + 1) (headerLineSub (i + 1) cmd c)
    else Sum.inl c

def headersBody (adj : Int) (c : List Char) : Sum (List Char) (List Char) :=
  headersLoop adj 5 0 c

/-- `convert_headers`: the try body with its `except`-handler, which returns
the current `content` on a raise. -/
def convert_headers (adj : Int) (c : List Char) : List Char :=
  (headersBody adj c).elim id id

/-!
## List pass
-/

/-- The two-character sequence `\n` produced by the raw f-strings
(`fr"...\n..."`): a literal backslash followed by the letter `n`, not a
newline character. -/
def litNL : List Char := ['\\', 'n']

/-- Stage one, per line: `re.sub(r'^- (.*?)$', r'\\item \1', ..., MULTILINE)`. -/
def itemLine (l : List Char) : List Char :=
  if (chars "- ").isPrefixOf l then chars "\\item " ++ l.drop 2 else l

def listItemSub (s : List Char) : List Char :=
  joinChar '\n' ((splitChar '\n' s).map itemLine)

def isItemLine (l : List Char) : Bool := (chars "\\item ").isPrefixOf l

/-- `re.findall(r'((?:^\\item .*\n)+)', ..., MULTILINE)`: maximal runs of
newline-terminated `\item ` lines, in document order.  `cur` accumulates the
current run (each line with its trailing newline). -/
def collectRunsAux (cur : List Char) : List (List Char) → List (List Char)
  | [] => if cur.isEmpty then [] else [cur]
  | p :: ps =>
    if isItemLine p then collectRunsAux (cur ++ p ++ ['\n']) ps
    else (if cur.isEmpty then [] else [cur]) ++ collectRunsAux [] ps

/-- The blocks found by `re.findall`; only newline-terminated lines qualify,
so the final piece of the newline-split (which has no trailing newline) is
excluded. -/
def itemBlocks (s : List Char) : List (List Char) :=
  collectRunsAux [] (splitChar '\n' s).dropLast

/-- `fr"\begin{{itemize}}\n{block}\end{{itemize}}\n"` — raw f-string, so the
`\n` around the block are the literal two-character sequence. -/
def wrapItemize (b : List Char) : List Char :=
  chars "\\begin{itemize}" ++ litNL ++ b ++ chars "\\end{itemize}" ++ litNL

/-- `convert_lists`: rewrite `- ` lines to `\item ` lines, then replace every
occurrence of each found block (Python `str.replace` replaces all
occurrences, and the loop runs once per block found, duplicates included). -/
def convert_lists (s : List Char) : List Char :=
  let s1 := listItemSub s
  (itemBlocks s1).foldl (fun c b => replaceAll b (wrapItemize b) c) s1

/-!
## Image pass
-/

/-- The figure block emitted by the raw triple-quoted f-strings (real
newlines; leading and trailing newline included). -/
def figTemplate (figDir size_info fname caption label : List Char) : List Char :=
  chars "\n\\begin{figure}[htbp]\n    \\centering\n    \\includegraphics" ++
  size_info ++ '{' :: figDir ++ '/' :: fname ++ '}' ::
  chars "\n    \\caption" ++ '{' :: caption ++ '}' ::
  chars "\n    \\label" ++ '{' :: label ++ '}' ::
  chars "\n\\end{figure}\n"

/-- `replace_image`, the callable for `!\[\[(.*?)\]\]` matches: group `g` is
the embed body `path[|size]`. -/
def replace_image (figDir : List Char) (g : List Char) : List Char :=
  let parts := splitChar '|' g
  let image_path := pyStrip (parts.headD [])
  let size_info :=
    if g.contains '|' then
      let size := pyStrip (parts.getD 1 [])
      if pyIsDigit size then chars "[width=" ++ size ++ chars "pt]" else []
    else []
  let filename := basenameOf image_path
  let clean_filename :=
    filename.map (fun c => if wordChar c || c = '.' || c = '-' then c else '_')
  let caption := (splitChar '.' (replaceChar '_' ' ' filename)).headD []
  let label := chars "fig:" ++ replaceChar '.' '_' clean_filename
  figTemplate figDir size_info clean_filename caption label

/-- `_process_md_image`, the callable for `!\[(.*?)\]\((.*?)\)` matches:
caption is the alt text, filename is used unsanitised. -/
def mdImageRepl (figDir : List Char) (alt path : List Char) : List Char :=
  let filename := basenameOf path
  figTemplate figDir [] filename alt (chars "fig:" ++ replaceChar '.' '_' filename)

/-- `convert_images`: Obsidian embed syntax first, then standard markdown
image syntax. -/
def convert_images (figDir : List Char) (c : List Char) : List Char :=
  let c1 := gsub1 (chars "![[") (chars "]]") false (replace_image figDir) c
  gsub2 (chars "![") (chars "](") (chars ")") false false (mdImageRepl figDir) c1

/-!
## Link, comment and emphasis passes
-/

/-- `convert_internal_links`: three ordered substitutions — display-text wiki
links, plain wiki links, then markdown links. -/
def convert_internal_links (c : List Char) : List Char :=
  let c1 := gsub2 (chars "[[") (chars "|") (chars "]]") false false
    (fun _ disp => chars "\\textit" ++ '{' :: disp ++ ['}']) c
  let c2 := gsub1 (chars "[[") (chars "]]") false
    (fun t => chars "\\textit" ++ '{' :: t ++ ['}']) c1
  gsub2 (chars "[") (chars "](") (chars ")") false false
    (fun txt url => chars "\\href" ++ '{' :: url ++ '}' :: '{' :: txt ++ ['}']) c2

/-- `remove_comments`: `re.sub(r'%%.*?%%', '', content, flags=re.DOTALL)`. -/
def remove_comments (c : List Char) : List Char :=
  gsub1 (chars "%%") (chars "%%") true (fun _ => []) c

/-- `convert_emphasis`: bold, then italic, then strikethrough. -/
def convert_emphasis (c : List Char) : List Char :=
  let c1 := gsub1 (chars "**") (chars "**") false
    (fun t => chars "\\textbf" ++ '{' :: t ++ ['}']) c
  let c2 := gsub1 (chars "*") (chars "*") false
    (fun t => chars "\\textit" ++ '{' :: t ++ ['}']) c1
  gsub1 (chars "~~") (chars "~~") false
    (fun t => chars "\\sout" ++ '{' :: t ++ ['}']) c2

/-!
## Code block pass
-/

/-- `replace_code_block`, the callable for ```` ```(.*?)\n(.*?)``` ```` with
DOTALL: `g1` is the opening-fence remainder (the language tag), `g2` the code.
A block whose stripped code starts and ends with `$` is returned verbatim
(`match.group(0)`); otherwise a raw f-string builds the environment, so the
`\n` separators are the literal two-character sequence. -/
def replace_code_block (g1 g2 : List Char) : List Char :=
  let language := pyStrip g1
  let t := pyStrip g2
  if t.head? = some '$' ∧ t.getLast? = some '$' then
    chars "```" ++ g1 ++ '\n' :: g2 ++ chars "```"
  else if language.isEmpty then
    chars "\\begin{verbatim}" ++ litNL ++ g2 ++ litNL ++ chars "\\end{verbatim}"
  else
    chars "\\begin{lstlisting}[language=" ++ language ++ ']' ::
      litNL ++ g2 ++ litNL ++ chars "\\end{lstlisting}"

/-- Scanner for ```` ```(.*?)\n(.*?)``` ```` (DOTALL): the first group runs to
the first newline after the fence (non-greedy), the second to the next
closing fence.  If either is missing no match starts here and the engine
advances one character. -/
def codeFenceAux (f : List Char → List Char → List Char) : Nat → List Char → List Char
  | 0, s => s
  | _ + 1, [] => []
  | n + 1, c :: cs =>
    if (chars "```").isPrefixOf (c :: cs) then
      match splitOnceChar '\n' ((c :: cs).drop 3) with
      | some (g1, afterNl) =>
        match splitFirst (chars "```") true afterNl with
        | some (g2, rest) => f g1 g2 ++ codeFenceAux f n rest
        | none => c :: codeFenceAux f n cs
      | none => c :: codeFenceAux f n cs
    else c :: codeFenceAux f n cs

def codeFenceSub (f : List Char → List Char → List Char) (s : List Char) : List Char :=
  codeFenceAux f s.length s

/-- Scanner for the inline-code pattern `` `([^`]+)` ``: the group is
nonempty, backtick-free, and may contain newlines. -/
def inlineCodeAux : Nat → List Char → List Char
  | 0, s => s
  | _ + 1, [] => []
  | n + 1, c :: cs =>
    if c = '`' then
      match splitFirst ['`'] true cs with
      | some (mid, rest) =>
        if mid.isEmpty then c :: inlineCodeAux n cs
        else chars "\\texttt" ++ '{' :: mid ++ '}' :: inlineCodeAux n rest
      | none => c :: inlineCodeAux n cs
    else c :: inlineCodeAux n cs

def inlineCodeSub (s : List Char) : List Char := inlineCodeAux s.length s

/-- `convert_code_blocks`: fenced blocks first, then inline code spans. -/
def convert_code_blocks (c : List Char) : List Char :=
  inlineCodeSub (codeFenceSub replace_code_block c)

/-- `preserve_math`: re-emits every `aligned` environment identically. -/
def preserve_math (c : List Char) : List Char :=
  gsub1 (chars "\\begin{aligned}") (chars "\\end{aligned}") true
    (fun mid => chars "\\begin{aligned}" ++ mid ++ chars "\\end{aligned}") c

/-!
## Header comment, pipeline, save
-/

/-- Python truthiness of a metadata value (`''` and `[]` are falsy). -/
def pyTruthy : MetaVal → Bool
  | MetaVal.s v => !v.isEmpty
  | MetaVal.l v => !v.isEmpty

/-- How an f-string renders a metadata value (`str()` of a list uses the
bracketed, quoted repr; quote-escaping inside items is not modelled). -/
def renderVal : MetaVal → List Char
  | MetaVal.s v => v
  | MetaVal.l vs =>
    '[' :: List.intercalate (chars ", ")
      (vs.map (fun v => Char.ofNat 39 :: v ++ [Char.ofNat 39])) ++ [']']

/-- The tags string: `', '.join(tags)` for a list, `str(tags)` otherwise. -/
def tagsStr : MetaVal → List Char
  | MetaVal.l vs => List.intercalate (chars ", ") vs
  | MetaVal.s v => v

/-- `add_section_comment`: the generated provenance comment prepended to the
converted text. -/
def add_section_comment (srcName : List Char) (m : Metadata) (c : List Char) :
    List Char :=
  chars "% Auto-generated from Obsidian markdown\n% Source: " ++
  basenameOf srcName ++ '\n' ::
  (if pyTruthy m.title then chars "% Title: " ++ renderVal m.title ++ ['\n'] else []) ++
  (if pyTruthy m.tags then chars "% Tags: " ++ tagsStr m.tags ++ ['\n'] else []) ++
  chars "%\n\n" ++ c

/-- The transformation passes of `convert`, as an enumeration (the passes
that take configuration carry it). -/
inductive PipePass where
  | stripFM
  | comments
  | headers (adj : Int)
  | lists
  | images (figDir : List Char)
  | links
  | emphasis
  | codeBlocks
  | mathPass

/-- The try-body of each pass: `Sum.inl c` models an exception raised with
the local `content` variable holding `c`; `Sum.inr c` is normal completion.
Only the header pass performs a raising operation (its rejected replacement
template); every other pass's substitutions are total. -/
def passBody : PipePass → List Char → Sum (List Char) (List Char)
  | PipePass.stripFM, c => Sum.inr (remove_frontmatter c)
  | PipePass.comments, c => Sum.inr (remove_comments c)
  | PipePass.headers adj, c => headersBody adj c
  | PipePass.lists, c => Sum.inr (convert_lists c)
  | PipePass.images d, c => Sum.inr (convert_images d c)
  | PipePass.links, c => Sum.inr (convert_internal_links c)
  | PipePass.emphasis, c => Sum.inr (convert_emphasis c)
  | PipePass.codeBlocks, c => Sum.inr (convert_code_blocks c)
  | PipePass.mathPass, c => Sum.inr (preserve_math c)

/-- A pass as executed: the try body with the `except`-handler that returns
the current `content` on a raise. -/
def runPass (p : PipePass) (c : List Char) : List Char :=
  (passBody p c).elim id id

/-- `convert`: the whole text pipeline, threading the metadata record.
Returns the produced LaTeX text and the metadata state after the run. -/
def convertText (figDir : List Char) (adj : Int) (srcName : List Char)
    (m : Metadata) (t : List Char) : List Char × Metadata :=
  let m1 := (extract_frontmatter t m).2
  let c := remove_frontmatter t
  let c := remove_comments c
  let c := convert_headers adj c
  let c := convert_lists c
  let c := convert_images figDir c
  let c := convert_internal_links c
  let c := convert_emphasis c
  let c := convert_code_blocks c
  let c := preserve_math c
  (add_section_comment srcName m1 c, m1)

/-!
## Saving

`save` is modelled over an explicit flat file store (path to content); the
backup timestamp, produced by `datetime.now()`, is an environment input.
-/

/-- The `overwrite_mode` argument of `save`. -/
inductive SaveMode where
  | overwrite
  | backup
  | skip
deriving DecidableEq

/-- A file store: association list from path to content (first match wins). -/
def FileStore := List (List Char × List Char)

def fsGet (fs : FileStore) (p : List Char) : Option (List Char) :=
  match fs with
  | [] => none
  | (q, v) :: rest => if q = p then some v else fsGet rest p

def fsSet (fs : FileStore) (p v : List Char) : FileStore :=
  match fs with
  | [] => [(p, v)]
  | (q, w) :: rest => if q = p then (q, v) :: rest else (q, w) :: fsSet rest p v

/-- The backup file name `f"{self.output_file}.{timestamp}.bak"`. -/
def backupName (outPath ts : List Char) : List Char :=
  outPath ++ '.' :: ts ++ chars ".bak"

/-- `save`: empty content fails; under `skip` an existing file is left
untouched and success is reported; under `backup` the existing content is
first copied to the timestamped name; then the target is written. -/
def save (fs : FileStore) (outPath content : List Char) (mode : SaveMode)
    (ts : List Char) : Bool × FileStore :=
  if content.isEmpty then (false, fs)
  else
    match fsGet fs outPath with
    | some old =>
      match mode with
      | SaveMode.skip => (true, fs)
      | SaveMode.backup =>
        (true, fsSet (fsSet fs (backupName outPath ts) old) outPath content)
      | SaveMode.overwrite => (true, fsSet fs outPath content)
    | none => (true, fsSet fs outPath content)

/-!
## Helper lemmas
-/

/-- Every clamped index stays at most 4, the last index of the command table. -/
theorem clampIdx_le_four (adj : Int) (i : Nat) : clampIdx adj i ≤ 4 := by
  have h1 : min (max ((i : Int) + adj) 0) 4 ≤ (4 : Int) := min_le_right _ _
  have h2 : (min (max ((i : Int) + adj) 0) 4).toNat ≤ ((4 : Int)).toNat :=
    Int.toNat_le_toNat h1
  exact h2

/-- Every sectioning command yields a replacement template rejected by the
`re.sub` template parser (each begins with `\s` or `\p`, a bad escape). -/
theorem headerRepl_rejected (k : Nat) (hk : k ≤ 4) :
    templateOk (headerRepl (section_commands.getD k [])) = false := by
  have : k = 0 ∨ k = 1 ∨ k = 2 ∨ k = 3 ∨ k = 4 := by omega
  rcases this with h | h | h | h | h <;> subst h <;> decide

/-- The header-pass body always raises on its first substitution, before
`content` has been reassigned. -/
theorem headersBody_inl (adj : Int) (c : List Char) :
    headersBody adj c = Sum.inl c := by
  have h := headerRepl_rejected (clampIdx adj 0) (clampIdx_le_four adj 0)
  simp only [headersBody, headersLoop, h, Bool.false_eq_true, if_false]

/-- `os.path.basename` never contains a path separator. -/
theorem basenameOf_no_slash (s : List Char) : '/' ∉ basenameOf s := by
  intro h
  rw [basenameOf, List.mem_reverse] at h
  have := List.mem_takeWhile_imp h
  simp at this

/-- The sanitised filename never contains a path separator: every character
outside `[\w.-]` is replaced by an underscore, and `/` is outside it. -/
theorem sanitized_no_slash (s : List Char) :
    '/' ∉ s.map (fun c => if wordChar c || c = '.' || c = '-' then c else '_') := by
  intro h
  rw [List.mem_map] at h
  obtain ⟨c, -, hc⟩ := h
  by_cases hw : wordChar c || c = '.' || c = '-' <;> simp [hw] at hc
  subst hc; simp [wordChar, pyDigit] at hw

theorem tags_ne_title : chars "tags" ≠ chars "title" := by decide

theorem title_ne_tags : chars "title" ≠ chars "tags" := by decide

/-- Last value stored for a key by the frontmatter update loop. -/
def lastVal (key : List Char) : List (List Char × MetaVal) → Option MetaVal
  | [] => none
  | (k, v) :: rest =>
    match lastVal key rest with
    | some w => some w
    | none => if k = key then some v else none

theorem applyFM_title (fm : List (List Char × MetaVal)) (m : Metadata) :
    (applyFM fm m).title = (lastVal (chars "title") fm).getD m.title := by
  induction fm generalizing m with
  | nil => rfl
  | cons p rest ih =>
    obtain ⟨k, v⟩ := p
    show (applyFM rest (metaSet k v m)).title = _
    rw [ih]
    cases hl : lastVal (chars "title") rest with
    | some w => simp [lastVal, hl]
    | none =>
      simp only [lastVal, hl]
      by_cases hk : k = chars "title"
      · simp [metaSet, hk]
      · by_cases hg : k = chars "tags" <;> simp [metaSet, hk, hg, tags_ne_title]

theorem applyFM_tags (fm : List (List Char × MetaVal)) (m : Metadata) :
    (applyFM fm m).tags = (lastVal (chars "tags") fm).getD m.tags := by
  induction fm generalizing m with
  | nil => rfl
  | cons p rest ih =>
    obtain ⟨k, v⟩ := p
    show (applyFM rest (metaSet k v m)).tags = _
    rw [ih]
    cases hl : lastVal (chars "tags") rest with
    | some w => simp [lastVal, hl]
    | none =>
      simp only [lastVal, hl]
      by_cases hk : k = chars "tags"
      · simp [metaSet, hk, tags_ne_title]
      · by_cases ht : k = chars "title" <;> simp [metaSet, hk, ht, title_ne_tags]

theorem metadata_ext {a b : Metadata} (ht : a.title = b.title)
    (hg : a.tags = b.tags) : a = b := by
  cases a; cases b; simp_all

/-- Re-running the metadata update loop with the same dict is a no-op. -/
theorem applyFM_idem (fm : List (List Char × MetaVal)) (m : Metadata) :
    applyFM fm (applyFM fm m) = applyFM fm m := by
  refine metadata_ext ?_ ?_
  · rw [applyFM_title, applyFM_title]
    cases lastVal (chars "title") fm <;> simp
  · rw [applyFM_tags, applyFM_tags]
    cases lastVal (chars "tags") fm <;> simp

theorem fsGet_set_same (fs : FileStore) (p v : List Char) :
    fsGet (fsSet fs p v) p = some v := by
  induction fs with
  | nil => simp [fsSet, fsGet]
  | cons q rest ih =>
    obtain ⟨q1, q2⟩ := q
    by_cases h : q1 = p <;> simp [fsSet, fsGet, h, ih]

theorem fsGet_set_other (fs : FileStore) (p q v : List Char) (h : q ≠ p) :
    fsGet (fsSet fs q v) p = fsGet fs p := by
  induction fs with
  | nil => simp [fsSet, fsGet, h]
  | cons r rest ih =>
    obtain ⟨r1, r2⟩ := r
    by_cases hr : r1 = q <;> simp [fsSet, fsGet, hr, ih]
    · subst hr; simp [h]

theorem splitChar_ne_nil (sep : Char) (s : List Char) : splitChar sep s ≠ [] := by
  induction s with
  | nil => simp [splitChar]
  | cons c cs ih =>
    simp only [splitChar]
    by_cases h : c = sep
    · simp [h]
    · simp only [if_neg h]
      cases hr : splitChar sep cs with
      | nil => exact absurd hr ih
      | cons a t => simp

/-- The pieces produced by `splitChar` do not contain the separator. -/
theorem mem_splitChar_not_sep (sep : Char) (s : List Char) (p : List Char)
    (hp : p ∈ splitChar sep s) : sep ∉ p := by
  induction s generalizing p with
  | nil =>
    simp only [splitChar, List.mem_singleton] at hp
    subst hp; simp
  | cons c cs ih =>
    simp only [splitChar] at hp
    by_cases h : c = sep
    · rw [if_pos h] at hp
      rcases List.mem_cons.mp hp with h1 | h1
      · subst h1; simp
      · exact ih p h1
    · rw [if_neg h] at hp
      cases hr : splitChar sep cs with
      | nil => exact absurd hr (splitChar_ne_nil sep cs)
      | cons a t =>
        rw [hr] at hp
        rcases List.mem_cons.mp hp with h1 | h1
        · subst h1
          intro hm
          rcases List.mem_cons.mp hm with h2 | h2
          · exact h h2.symm
          · exact ih a (by rw [hr]; exact List.mem_cons_self a t) h2
        · exact ih p (by rw [hr]; exact List.mem_cons_of_mem a h1)

theorem joinChar_single (sep : Char) (a : List Char) : joinChar sep [a] = a := by
  simp [joinChar, List.intercalate]

theorem joinChar_cons_cons (sep : Char) (a b : List Char) (t : List (List Char)) :
    joinChar sep (a :: b :: t) = a ++ sep :: joinChar sep (b :: t) := by
  simp [joinChar, List.intercalate]

/-- Splitting a separator-free piece is the identity. -/
theorem splitChar_of_not_mem (sep : Char) (p : List Char) (hp : sep ∉ p) :
    splitChar sep p = [p] := by
  induction p with
  | nil => rfl
  | cons c cs ih =>
    have hc : ¬ c = sep := fun h => hp (h ▸ List.mem_cons_self c cs)
    have hcs : sep ∉ cs := fun h => hp (List.mem_cons_of_mem c h)
    simp only [splitChar, if_neg hc, ih hcs]

theorem splitChar_append_cons (sep : Char) (p t : List Char) (hp : sep ∉ p) :
    splitChar sep (p ++ sep :: t) = p :: splitChar sep t := by
  induction p with
  | nil => simp [splitChar]
  | cons c cs ih =>
    have hc : ¬ c = sep := fun h => hp (h ▸ List.mem_cons_self c cs)
    have hcs : sep ∉ cs := fun h => hp (List.mem_cons_of_mem c h)
    show splitChar sep (c :: (cs ++ sep :: t)) = (c :: cs) :: splitChar sep t
    simp only [splitChar, if_neg hc]
    rw [ih hcs]

/-- Splitting after joining separator-free pieces recovers the pieces. -/
theorem splitChar_joinChar (sep : Char) (ps : List (List Char)) (hne : ps ≠ [])
    (h : ∀ p ∈ ps, sep ∉ p) : splitChar sep (joinChar sep ps) = ps := by
  induction ps with
  | nil => exact absurd rfl hne
  | cons a t ih =>
    cases t with
    | nil => rw [joinChar_single]; exact splitChar_of_not_mem sep a (h a (by simp))
    | cons b r =>
      rw [joinChar_cons_cons, splitChar_append_cons sep a _ (h a (by simp))]
      rw [ih (by simp) (fun p hp => h p (List.mem_cons_of_mem a hp))]

/-- Joining after splitting recovers the string. -/
theorem joinChar_splitChar (sep : Char) (s : List Char) :
    joinChar sep (splitChar sep s) = s := by
  induction s with
  | nil => rfl
  | cons c cs ih =>
    obtain ⟨a, t, hr⟩ : ∃ a t, splitChar sep cs = a :: t := by
      cases hq : splitChar sep cs with
      | nil => exact absurd hq (splitChar_ne_nil sep cs)
      | cons a t => exact ⟨a, t, rfl⟩
    by_cases h : c = sep
    · have hs : splitChar sep (c :: cs) = [] :: splitChar sep cs := by
        simp [splitChar, h]
      rw [hs, hr, joinChar_cons_cons, ← hr, ih]
      simp [h]
    · have hs : splitChar sep (c :: cs) = (c :: a) :: t := by
        simp [splitChar, if_neg h, hr]
      rw [hs]
      cases t with
      | nil =>
        rw [joinChar_single]
        have := ih
        rw [hr, joinChar_single] at this
        rw [this]
      | cons b r =>
        rw [joinChar_cons_cons]
        have := ih
        rw [hr, joinChar_cons_cons] at this
        simp only [List.cons_append]
        rw [this]

/-- Stage one of the list pass is line-by-line: the lines of the rewritten
text are exactly the `itemLine`-images of the input lines (the MULTILINE
anchoring of `re.sub(r'^- (.*?)$', ...)`). -/
theorem listItemSub_lines (s : List Char) :
    splitChar '\n' (listItemSub s) = (splitChar '\n' s).map itemLine := by
  unfold listItemSub
  apply splitChar_joinChar
  · intro hmap
    exact splitChar_ne_nil '\n' s (List.map_eq_nil_iff.mp hmap)
  · intro p hp
    obtain ⟨l, hl, rfl⟩ := List.mem_map.mp hp
    have hnl : '\n' ∉ l := mem_splitChar_not_sep '\n' s l hl
    unfold itemLine
    by_cases hpre : (chars "- ").isPrefixOf l
    · rw [if_pos hpre]
      intro hm
      rcases List.mem_append.mp hm with h1 | h1
      · revert h1; decide
      · exact hnl (List.drop_subset 2 l h1)
    · rw [if_neg hpre]; exact hnl

/-- A line list with no `\item ` lines yields no blocks. -/
theorem collectRunsAux_nil (ls : List (List Char))
    (h : ∀ l ∈ ls, isItemLine l = false) : collectRunsAux [] ls = [] := by
  induction ls with
  | nil => rfl
  | cons p ps ih =>
    have hp : isItemLine p = false := h p (List.mem_cons_self p ps)
    simp [collectRunsAux, hp, ih (fun l hl => h l (List.mem_cons_of_mem p hl))]

/-- A document none of whose lines is a dash bullet or an `\item ` line
passes through the list pass unchanged. -/
theorem convert_lists_no_bullets (s : List Char)
    (h : ∀ l ∈ splitChar '\n' s,
      (chars "- ").isPrefixOf l = false ∧ (chars "\\item ").isPrefixOf l = false) :
    convert_lists s = s := by
  have hall : ∀ (ls : List (List Char)),
      (∀ l ∈ ls, (chars "- ").isPrefixOf l = false) → ls.map itemLine = ls := by
    intro ls
    induction ls with
    | nil => intro _; rfl
    | cons p ps ih =>
      intro hls
      have hp := hls p (List.mem_cons_self p ps)
      simp [itemLine, hp, ih (fun l hl => hls l (List.mem_cons_of_mem p hl))]
  have h1 : listItemSub s = s := by
    unfold listItemSub
    rw [hall _ (fun l hl => (h l hl).1), joinChar_splitChar]
  have h2 : itemBlocks s = [] := by
    unfold itemBlocks
    apply collectRunsAux_nil
    intro l hl
    have hmem : l ∈ splitChar '\n' s := List.dropLast_subset _ hl
    simpa [isItemLine] using (h l hmem).2
  simp only [convert_lists, h1, h2, List.foldl_nil]

/-!
## Claim theorems
-/

set_option maxRecDepth 8000

/-- C1: the header pass is specified to map each heading depth to the clamped
sectioning command, but on the code every replacement template
(`\section{\1}`, ...) begins with a bad escape, the first `re.sub` raises,
and the pass returns its input unchanged — no heading is ever converted. -/
theorem convert_headers_never_rewrites :
    (∀ (adj : Int) (c : List Char), convert_headers adj c = c) ∧
    convert_headers 0 (chars "# Title") ≠ chars "\\section{Title}" ∧
    convert_headers 2 (chars "# Title") ≠ chars "\\subsubsection{Title}" ∧
    convert_headers (-5) (chars "## Heading") ≠ chars "\\section{Heading}" := by
  have h : ∀ (adj : Int) (c : List Char), convert_headers adj c = c := by
    intro adj c
    unfold convert_headers
    rw [headersBody_inl]
    rfl
  refine ⟨h, ?_, ?_, ?_⟩ <;> rw [h] <;> decide

/-- C2 counterexample: a fenced block whose sole content is `$x=1$` is not
byte-identical after the code-block pass — the fenced-block substitution
returns it unchanged, but the pass's inline-code substitution then rewrites
the backticks around it. -/
theorem code_block_math_not_preserved :
    convert_code_blocks (chars "```\n$x=1$\n```") ≠ chars "```\n$x=1$\n```" ∧
    convert_code_blocks (chars "```\n$x=1$\n```") =
      chars "``\\texttt\x7b\n$x=1$\n\x7d``" := by decide

/-- C2 amended: the fenced-block substitution alone passes the dollar-math
block through unchanged; untagged blocks become verbatim environments and
tagged blocks become lstlisting environments naming the language; but the
subsequent inline-code substitution of the same pass means the math block is
not byte-identical after the full pass. -/
theorem code_block_pass_amended :
    (∀ c, convert_code_blocks c = inlineCodeSub (codeFenceSub replace_code_block c)) ∧
    codeFenceSub replace_code_block (chars "```\n$x=1$\n```") = chars "```\n$x=1$\n```" ∧
    convert_code_blocks (chars "```\nx = 1\n```") =
      chars "\\begin{verbatim}\\nx = 1\n\\n\\end{verbatim}" ∧
    convert_code_blocks (chars "```python\nprint(1)\n```") =
      chars "\\begin{lstlisting}[language=python]\\nprint(1)\n\\n\\end{lstlisting}" :=
  ⟨fun _ => rfl, by decide, by decide, by decide⟩

/-- C3 counterexample: two single-item runs with identical text are not each
wrapped in exactly one itemize pair — `str.replace` replaces every occurrence
of the block and the per-block loop then wraps the already-wrapped text
again, double-wrapping both runs. -/
theorem lists_duplicate_runs_double_wrapped :
    convert_lists (chars "- a\n\n- a\n") ≠
      chars "\\begin{itemize}\\n\\item a\n\\end{itemize}\\n\n\\begin{itemize}\\n\\item a\n\\end{itemize}\\n" ∧
    convert_lists (chars "- a\n\n- a\n") =
      chars "\\begin{itemize}\\n\\begin{itemize}\\n\\item a\n\\end{itemize}\\n\\end{itemize}\\n\n\\begin{itemize}\\n\\begin{itemize}\\n\\item a\n\\end{itemize}\\n\\end{itemize}\\n" := by
  decide

/-- C3 amended: stage one rewrites each line starting with `- ` into an
`\item` line, line by line; stage two collects the maximal contiguous runs of
newline-terminated `\item` lines and, for each collected run in document
order, replaces every occurrence of that run's text in the current text with
a copy wrapped in one begin/end itemize pair.  This is per-occurrence text
replacement, not per-run wrapping, so a run whose text recurs elsewhere — as
a duplicate run, or as part of a longer run — can be wrapped twice or split
into several pairs.  Three consecutive dash-bulleted lines with pairwise
distinct texts produce exactly one wrapping block containing three item
markers; two dash-bulleted lines with distinct texts separated by a blank
line produce two separate single-item blocks; `- a`, blank, `- a`, `- a`
produces three separate single-item pairs, splitting the second (two-line)
run; and a document with no dash-bulleted lines and no `\item ` lines passes
through unchanged. -/
theorem lists_wrap_amended :
    (∀ s, splitChar '\n' (listItemSub s) = (splitChar '\n' s).map itemLine) ∧
    (∀ s, convert_lists s =
      (itemBlocks (listItemSub s)).foldl
        (fun c b => replaceAll b (wrapItemize b) c) (listItemSub s)) ∧
    convert_lists (chars "- a\n- b\n- c\n") =
      chars "\\begin{itemize}\\n\\item a\n\\item b\n\\item c\n\\end{itemize}\\n" ∧
    convert_lists (chars "- a\n\n- b\n") =
      chars "\\begin{itemize}\\n\\item a\n\\end{itemize}\\n\n\\begin{itemize}\\n\\item b\n\\end{itemize}\\n" ∧
    convert_lists (chars "- a\n\n- a\n- a\n") =
      chars "\\begin{itemize}\\n\\item a\n\\end{itemize}\\n\n\\begin{itemize}\\n\\item a\n\\end{itemize}\\n\\begin{itemize}\\n\\item a\n\\end{itemize}\\n" ∧
    (∀ s, (∀ l ∈ splitChar '\n' s,
        (chars "- ").isPrefixOf l = false ∧ (chars "\\item ").isPrefixOf l = false) →
      convert_lists s = s) :=
  ⟨listItemSub_lines, fun _ => rfl, by decide, by decide, by decide,
   convert_lists_no_bullets⟩

/-- C3 witness: the bullet-free pass-through conjunct exercised on a concrete
document. -/
theorem lists_wrap_amended_witness :
    convert_lists (chars "no bullets here\njust text") =
      chars "no bullets here\njust text" :=
  lists_wrap_amended.2.2.2.2.2 (chars "no bullets here\njust text") (by decide)

/-- C4: the embed-syntax image pass produces a figure block from the path's
basename prefixed by the figures directory; an all-digit pipe suffix emits a
`[width=...pt]` directive and a non-digit suffix emits none; the caption and
label are derived from the (sanitised) filename; neither the basename nor the
sanitised filename can retain a path separator. -/
theorem image_embed_resolution :
    convert_images (chars "figures") (chars "![[diagram.png|300]]") =
      chars "\n\\begin{figure}[htbp]\n    \\centering\n    \\includegraphics[width=300pt]{figures/diagram.png}\n    \\caption{diagram}\n    \\label{fig:diagram_png}\n\\end{figure}\n" ∧
    convert_images (chars "figures") (chars "![[a/b/diagram.png]]") =
      chars "\n\\begin{figure}[htbp]\n    \\centering\n    \\includegraphics{figures/diagram.png}\n    \\caption{diagram}\n    \\label{fig:diagram_png}\n\\end{figure}\n" ∧
    convert_images (chars "figures") (chars "![[diagram.png|12a]]") =
      chars "\n\\begin{figure}[htbp]\n    \\centering\n    \\includegraphics{figures/diagram.png}\n    \\caption{diagram}\n    \\label{fig:diagram_png}\n\\end{figure}\n" ∧
    (∀ s : List Char, '/' ∉ basenameOf s) ∧
    (∀ s : List Char,
      '/' ∉ s.map (fun c => if wordChar c || c = '.' || c = '-' then c else '_')) :=
  ⟨by decide, by decide, by decide, basenameOf_no_slash, sanitized_no_slash⟩

/-- C5: the link pass is the composition of three ordered substitutions with
the display-text variant first; a display-text wiki link keeps only the
display text in an italic span, a plain wiki link keeps the target, and a
markdown link becomes a hyperlink command with URL and display text. -/
theorem link_resolution :
    (∀ c, convert_internal_links c =
      gsub2 (chars "[") (chars "](") (chars ")") false false
        (fun txt url => chars "\\href" ++ '{' :: url ++ '}' :: '{' :: txt ++ ['}'])
        (gsub1 (chars "[[") (chars "]]") false
          (fun t => chars "\\textit" ++ '{' :: t ++ ['}'])
          (gsub2 (chars "[[") (chars "|") (chars "]]") false false
            (fun _ disp => chars "\\textit" ++ '{' :: disp ++ ['}']) c))) ∧
    convert_internal_links (chars "[[Note A|shown text]]") =
      chars "\\textit\x7bshown text\x7d" ∧
    convert_internal_links (chars "[[Note A]]") = chars "\\textit\x7bNote A\x7d" ∧
    convert_internal_links (chars "[text](http://x)") = chars "\\href{http://x}{text}" :=
  ⟨fun _ => rfl, by decide, by decide, by decide⟩

/-- C6: every pass runs its body under a catch-all handler; whenever the body
raises, the pass returns exactly its input text (the only raising pass, the
header pass, raises before any rewriting), and the pipeline applies every
subsequent pass to the result regardless. -/
theorem passes_fail_soft :
    (∀ (p : PipePass) (c : List Char),
      (passBody p c).isLeft = true → runPass p c = c) ∧
    (∀ (figDir : List Char) (adj : Int) (srcName : List Char) (m : Metadata)
      (t : List Char),
      (convertText figDir adj srcName m t).1 =
        add_section_comment srcName (extract_frontmatter t m).2
          (runPass PipePass.mathPass (runPass PipePass.codeBlocks
            (runPass PipePass.emphasis (runPass PipePass.links
              (runPass (PipePass.images figDir) (runPass PipePass.lists
                (runPass (PipePass.headers adj) (runPass PipePass.comments
                  (runPass PipePass.stripFM t)))))))))) := by
  constructor
  · intro p c h
    cases p <;> simp [runPass, passBody, headersBody_inl] at h ⊢
  · intro figDir adj srcName m t
    simp only [convertText, runPass, passBody, convert_headers, Sum.elim_inr, id_eq]

/-- C6 witness: the header pass raises (its body is `inl`) on a concrete
document and returns it unchanged. -/
theorem passes_fail_soft_witness :
    (passBody (PipePass.headers 0) (chars "# Title")).isLeft = true ∧
    runPass (PipePass.headers 0) (chars "# Title") = chars "# Title" :=
  ⟨by decide, passes_fail_soft.1 (PipePass.headers 0) (chars "# Title") (by decide)⟩

/-- C7: frontmatter extraction returns the parsed dict and updates the
metadata record by folding it over; when the frontmatter pattern does not
match it returns the empty map and leaves the metadata untouched;
unrecognised keys never modify the record; and a well-formed block sets the
recognised fields. -/
theorem frontmatter_extraction :
    (∀ t m, extract_frontmatter t m = (extractDict t, applyFM (extractDict t) m)) ∧
    (∀ t m, fmMatch t = none → extract_frontmatter t m = ([], m)) ∧
    (∀ (k : List Char) (v : MetaVal) (m : Metadata),
      k ≠ chars "title" → k ≠ chars "tags" → metaSet k v m = m) ∧
    extract_frontmatter (chars "---\ntitle: My Note\ntags: x\n---\nbody")
        defaultMetadata =
      ([(chars "title", MetaVal.s (chars "My Note")),
        (chars "tags", MetaVal.s (chars "x"))],
       { title := MetaVal.s (chars "My Note"), tags := MetaVal.s (chars "x") }) := by
  refine ⟨fun _ _ => rfl, fun t m h => ?_, fun k v m h1 h2 => ?_, by decide⟩
  · simp [extract_frontmatter, extractDict, h, applyFM]
  · simp [metaSet, h1, h2]

/-- C7 witness: a document without frontmatter yields the empty map and the
default metadata, and an unrecognised key leaves the record unchanged. -/
theorem frontmatter_extraction_witness :
    extract_frontmatter (chars "plain body") defaultMetadata = ([], defaultMetadata) ∧
    metaSet (chars "author") (MetaVal.s (chars "x")) defaultMetadata = defaultMetadata :=
  ⟨frontmatter_extraction.2.1 (chars "plain body") defaultMetadata (by decide),
   frontmatter_extraction.2.2.1 (chars "author") (MetaVal.s (chars "x"))
     defaultMetadata (by decide) (by decide)⟩

/-- C8: saving over an existing file under `skip` leaves the store unchanged
and reports success; under `backup` it reports success, the target holds the
new content, and the old content survives under the timestamped backup name,
which contains the timestamp. -/
theorem save_existing_file_modes (fs : FileStore) (p c old ts : List Char)
    (hex : fsGet fs p = some old) (hc : c.isEmpty = false) :
    save fs p c SaveMode.skip ts = (true, fs) ∧
    fsGet (save fs p c SaveMode.skip ts).2 p = some old ∧
    (save fs p c SaveMode.backup ts).1 = true ∧
    fsGet (save fs p c SaveMode.backup ts).2 p = some c ∧
    fsGet (save fs p c SaveMode.backup ts).2 (backupName p ts) = some old ∧
    List.IsInfix ts (backupName p ts) := by
  have hbk : backupName p ts ≠ p := by
    intro h
    have hlen := congrArg List.length h
    simp [backupName] at hlen
  have hskip : save fs p c SaveMode.skip ts = (true, fs) := by
    simp [save, hc, hex]
  have hbackup : save fs p c SaveMode.backup ts =
      (true, fsSet (fsSet fs (backupName p ts) old) p c) := by
    simp [save, hc, hex]
  refine ⟨hskip, ?_, ?_, ?_, ?_, ?_⟩
  · rw [hskip]; exact hex
  · rw [hbackup]
  · rw [hbackup]; exact fsGet_set_same _ _ _
  · rw [hbackup]
    show fsGet (fsSet (fsSet fs (backupName p ts) old) p c) (backupName p ts) = some old
    rw [fsGet_set_other _ _ _ _ (Ne.symm hbk), fsGet_set_same]
  · exact ⟨p ++ ['.'], chars ".bak", by simp [backupName]⟩

/-- C8 witness: the modes exercised on a concrete one-file store. -/
theorem save_existing_file_modes_witness :
    save [(chars "out.tex", chars "old text")] (chars "out.tex") (chars "new text")
        SaveMode.skip (chars "20250101_120000") =
      (true, [(chars "out.tex", chars "old text")]) ∧
    fsGet (save [(chars "out.tex", chars "old text")] (chars "out.tex")
        (chars "new text") SaveMode.backup (chars "20250101_120000")).2
        (chars "out.tex") =
      some (chars "new text") := by
  have h := save_existing_file_modes [(chars "out.tex", chars "old text")]
    (chars "out.tex") (chars "new text") (chars "old text")
    (chars "20250101_120000") (by decide) (by decide)
  exact ⟨h.1, h.2.2.2.1⟩

/-- C9: the pipeline is a pure function of text and configuration (two runs
on identical inputs agree), and re-running it on the same text from the
metadata state a first run produced yields the identical output, because the
metadata update is idempotent. -/
theorem convert_pipeline_deterministic :
    (∀ (figDir : List Char) (adj : Int) (srcName : List Char) (m : Metadata)
      (t : List Char),
      convertText figDir adj srcName m t = convertText figDir adj srcName m t) ∧
    (∀ (figDir : List Char) (adj : Int) (srcName : List Char) (m : Metadata)
      (t : List Char),
      (convertText figDir adj srcName (convertText figDir adj srcName m t).2 t).1 =
        (convertText figDir adj srcName m t).1) := by
  refine ⟨fun _ _ _ _ _ => rfl, fun figDir adj srcName m t => ?_⟩
  show add_section_comment srcName
      (applyFM (extractDict t) (applyFM (extractDict t) m)) _ =
    add_section_comment srcName (applyFM (extractDict t) m) _
  rw [applyFM_idem]

/-- C10 counterexample: a wrapped itemize block does not occupy a single text
line — the wrapped content keeps its real trailing newline before the end
marker, so the output contains a newline character and differs from the
all-literal single-line form the claim predicts. -/
theorem wrapped_block_not_single_line :
    convert_lists (chars "- a\n") =
      chars "\\begin{itemize}\\n\\item a\n\\end{itemize}\\n" ∧
    '\n' ∈ convert_lists (chars "- a\n") ∧
    convert_lists (chars "- a\n") ≠
      chars "\\begin{itemize}\\n\\item a\\n\\end{itemize}\\n" := by decide

/-- C10 amended: the begin marker is joined to the wrapped content by the
literal two-character `\n` in both the list and code-block environments, and
the code-block content is joined to its end marker the same way; but the
itemize content retains its real trailing newline before the end marker, and
content may contain real newlines, so a wrapped block can span several
lines. -/
theorem wrapped_block_literal_joins :
    (∀ b, wrapItemize b =
      chars "\\begin{itemize}" ++ litNL ++ b ++ chars "\\end{itemize}" ++ litNL) ∧
    convert_code_blocks (chars "```\ncode\n```") =
      chars "\\begin{verbatim}" ++ litNL ++ chars "code\n" ++ litNL ++
        chars "\\end{verbatim}" ∧
    convert_lists (chars "- a\n") =
      chars "\\begin{itemize}" ++ litNL ++ chars "\\item a\n" ++
        chars "\\end{itemize}" ++ litNL :=
  ⟨fun _ => rfl, by decide, by decide⟩
